import Mathlib

/-!
Verification of the visibility-graph pathfinder (Web-Path-Simulation).

The development shallowly embeds the core of `src/pathfinder.js`:

* the geometry kernel (`pointInRect`, `lineIntersectsLine`,
  `lineIntersectsRect`, `isVisible`),
* the visibility-graph builder (`buildGraph`, split here into the edge
  pass `buildEdges` and the adjacency pass `graphOf`),
* the A* search (`runAStar`, `getLowestEstimatecCost`, `constructPath`,
  `heuristic`).

Coordinates are embedded as rationals (the JS code uses IEEE doubles; the
spec describes exact arithmetic, and all geometric comparisons in the code
are expressible over any ordered field).  Edge weights use `Real.sqrt`
to embed `Math.hypot` exactly.  JavaScript `Infinity` cost entries are
embedded as `(⊤ : WithTop ℝ)`; a `Map.get` miss (JS `undefined`) is also
read as `⊤`, which agrees with the source whenever every node id looked
up was initialised by the `for (const node of nodes)` loop, as is the
case in every theorem below.  The JS `while` loops are embedded with an
explicit fuel argument; running out of fuel is the distinguished result
`AResult.outOfFuel`, which never occurs in the runs the source performs
to completion.  The JS `Set` frontier is embedded as an insertion-ordered
duplicate-free list, and the cost `Map`s as association lists whose most
recent binding wins.
-/

namespace PathSim

/-- A 2D point, as the plain `{x, y}` objects of the source. -/
structure Pt where
  x : ℚ
  y : ℚ
deriving DecidableEq

/-- An obstacle rectangle `{x, y, width, height}` (`obstacles` entries). -/
structure Obstacle where
  x : ℚ
  y : ℚ
  width : ℚ
  height : ℚ
deriving DecidableEq

/-- A graph node `{x, y, id, parentWall?}` (`nodes` entries). -/
structure Node where
  id : ℕ
  x : ℚ
  y : ℚ
  parentWall : Option ℕ
deriving DecidableEq

/-- The position of a node, viewed as a point. -/
def Node.pt (n : Node) : Pt := ⟨n.x, n.y⟩

/-- A directed edge `{from, to}` (`edges` entries).  The JS field `from`
is a Lean keyword, hence `fromN` / `toN`. -/
structure Edge where
  fromN : Node
  toN : Node
deriving DecidableEq

/-! ## Geometry kernel (source: `pointInRect`, `lineIntersectsLine`,
`lineIntersectsRect`, `isVisible`) -/

/-- `pointInRect(p, r)`:
`p.x > r.x && p.x < r.x + r.width && p.y > r.y && p.y < r.y + r.height`. -/
def pointInRect (p : Pt) (r : Obstacle) : Bool :=
  decide (r.x < p.x ∧ p.x < r.x + r.width ∧ r.y < p.y ∧ p.y < r.y + r.height)

/-- The cross-product determinant computed at the top of
`lineIntersectsLine`. -/
def detQ (a1 a2 b1 b2 : Pt) : ℚ :=
  (a2.x - a1.x) * (b2.y - b1.y) - (a2.y - a1.y) * (b2.x - b1.x)

/-- `lineIntersectsLine(a1, a2, b1, b2)`: parallel segments report no
intersection; otherwise solve for the parameters and require both to be
strictly inside `(0, 1)`. -/
def lineIntersectsLine (a1 a2 b1 b2 : Pt) : Bool :=
  let det := detQ a1 a2 b1 b2
  if det = 0 then false
  else
    let lambda := ((b2.y - b1.y) * (b2.x - a1.x) + (b1.x - b2.x) * (b2.y - a1.y)) / det
    let gamma := ((a1.y - a2.y) * (b2.x - a1.x) + (a2.x - a1.x) * (b2.y - a1.y)) / det
    decide (0 < lambda ∧ lambda < 1 ∧ 0 < gamma ∧ gamma < 1)

/-- The four corners of a rectangle, in the order the source lists them. -/
def rectCorners (r : Obstacle) : List Pt :=
  [⟨r.x, r.y⟩, ⟨r.x + r.width, r.y⟩, ⟨r.x, r.y + r.height⟩, ⟨r.x + r.width, r.y + r.height⟩]

/-- The four boundary edges of a rectangle, in the order the source
builds them from `corners[0] .. corners[3]`. -/
def rectEdges (r : Obstacle) : List (Pt × Pt) :=
  [(⟨r.x, r.y⟩, ⟨r.x + r.width, r.y⟩),
   (⟨r.x, r.y⟩, ⟨r.x, r.y + r.height⟩),
   (⟨r.x + r.width, r.y⟩, ⟨r.x + r.width, r.y + r.height⟩),
   (⟨r.x, r.y + r.height⟩, ⟨r.x + r.width, r.y + r.height⟩)]

/-- `lineIntersectsRect(a, b, r)` from `src/pathfinder.js`: the segment
is blocked when it strictly crosses one of the four boundary edges, or
an endpoint lies strictly inside the rectangle. -/
def lineIntersectsRect (a b : Pt) (r : Obstacle) : Bool :=
  (rectEdges r).any (fun pq => lineIntersectsLine a b pq.1 pq.2) ||
  pointInRect a r || pointInRect b r

/-- `isVisible(a, b)` over an explicit obstacle list (the source reads
the global `obstacles`). -/
def isVisible (obstacles : List Obstacle) (a b : Pt) : Bool :=
  obstacles.all (fun obs => !lineIntersectsRect a b obs)

/-! ## Specification-side geometry

These definitions render the spec's geometric language ("strictly
crosses", "touches only at a corner", "lies on a segment") so that the
behaviour of the code's predicates can be compared against it. -/

/-- The point at parameter `t` on the segment from `a` to `b`. -/
def segPt (a b : Pt) (t : ℚ) : Pt :=
  ⟨a.x + t * (b.x - a.x), a.y + t * (b.y - a.y)⟩

/-- `p` lies on the closed segment from `a` to `b`. -/
def OnSeg (a b p : Pt) : Prop :=
  ∃ t : ℚ, 0 ≤ t ∧ t ≤ 1 ∧ p = segPt a b t

/-- `p` lies in the closed rectangle `r` (boundary included). -/
def InClosedRect (p : Pt) (r : Obstacle) : Prop :=
  r.x ≤ p.x ∧ p.x ≤ r.x + r.width ∧ r.y ≤ p.y ∧ p.y ≤ r.y + r.height

/-- The segment `a b` strictly crosses the segment `p q`: the two are
not parallel and they meet at a point lying strictly inside both. -/
def StrictCross (a b p q : Pt) : Prop :=
  detQ a b p q ≠ 0 ∧
    ∃ t s : ℚ, 0 < t ∧ t < 1 ∧ 0 < s ∧ s < 1 ∧ segPt a b t = segPt p q s

/-! ## Weights (source: `Math.hypot`, `heuristic`) -/

/-- `Math.hypot(dx, dy)` on exact rational inputs. -/
noncomputable def hypot (dx dy : ℚ) : ℝ :=
  Real.sqrt ((dx : ℝ) ^ 2 + (dy : ℝ) ^ 2)

/-- `heuristic(a, b)`: Euclidean distance between the two node
positions. -/
noncomputable def heuristic (a b : Node) : ℝ :=
  hypot (a.x - b.x) (a.y - b.y)

/-! ## Visibility-graph builder (source: `buildGraph`)

`buildGraph` first fills the global `edges`, then converts them into the
adjacency `Map graph`.  The two passes are embedded as `buildEdges` and
`graphOf`. -/

/-- The `sameWall` test inside `buildGraph`'s double loop:
`nodeA.parentWall !== undefined && nodeB.parentWall !== undefined &&
nodeA.parentWall === nodeB.parentWall`. -/
def sameWall (a b : Node) : Bool :=
  a.parentWall.isSome && b.parentWall.isSome && decide (a.parentWall = b.parentWall)

/-- The `allow` flag of `buildGraph`: a same-wall pair survives only if
it is axis-aligned (`dx > 0 && dy === 0` or `dy > 0 && dx === 0`). -/
def allowPair (a b : Node) : Bool :=
  if sameWall a b then
    let dx := |a.x - b.x|
    let dy := |a.y - b.y|
    decide ((dx > 0 ∧ dy = 0) ∨ (dy > 0 ∧ dx = 0))
  else true

/-- Inner loop of `buildGraph` for a fixed `nodeA = a`: for each later
`nodeB = b`, if the pair is allowed and visible, push both directed
edges. -/
def pairEdges (obstacles : List Obstacle) (a : Node) (rest : List Node) : List Edge :=
  rest.flatMap (fun b =>
    if allowPair a b && isVisible obstacles a.pt b.pt then
      [⟨a, b⟩, ⟨b, a⟩]
    else [])

/-- The edge pass of `buildGraph`: all pairs `i < j` in list order. -/
def buildEdges (obstacles : List Obstacle) : List Node → List Edge
  | [] => []
  | a :: rest => pairEdges obstacles a rest ++ buildEdges obstacles rest

/-- The adjacency pass of `buildGraph`: group the edges by `from.id`,
appending `{node: edge.to, weight: hypot(dx, dy)}` in edge order.  The
JS `Map` is embedded as a total function defaulting to the empty list,
which is how `runAStar` reads it (`graph.get(id) || []`). -/
noncomputable def graphOf (E : List Edge) : ℕ → List (Node × ℝ) :=
  E.foldl
    (fun g e => fun id =>
      if id = e.fromN.id then
        g id ++ [(e.toN, hypot (e.fromN.x - e.toN.x) (e.fromN.y - e.toN.y))]
      else g id)
    (fun _ => [])

/-! ## A* search (source: `runAStar`, `getLowestEstimatecCost`,
`constructPath`) -/

/-- A cost `Map` (`costFromStart` / `estimatedTotalCost`): an
association list from node id to a possibly-infinite cost.  The most
recent `set` wins. -/
abbrev CostMap := List (ℕ × WithTop ℝ)

/-- `Map.get` on a cost map.  A missing key is read as `⊤`: the source
initialises every node's entry to `Infinity`, and (JS `undefined`
aside, see the header) an uninitialised entry compares like `Infinity`
in every comparison the search performs. -/
def mapGet (m : CostMap) (k : ℕ) : WithTop ℝ :=
  (m.lookup k).getD ⊤

/-- `frontier.add(n)` on the insertion-ordered `Set`: appends `n` when
it is not yet present. -/
def frontierAdd (n : Node) (f : List Node) : List Node :=
  if n ∈ f then f else f ++ [n]

/-- `getLowestEstimatecCost(frontier, estimatedTotalCost)` (the
source's spelling): linear scan starting from `bestNode = null`,
`bestScore = Infinity`, taking each node whose score is strictly
smaller than the best so far. -/
noncomputable def getLowestEstimatecCost (frontier : List Node) (est : CostMap) : Option Node :=
  (frontier.foldl
    (fun acc node =>
      if mapGet est node.id < acc.2 then (some node, mapGet est node.id) else acc)
    ((none : Option Node), (⊤ : WithTop ℝ))).1

/-- `constructPath(cameFrom, currentNode)`: walk the predecessor chain,
prepending at each step.  The JS `while` is embedded with fuel; the
caller passes enough fuel for every chain the search can build. -/
def constructPath (cameFrom : List (ℕ × Node)) : Node → ℕ → List Node
  | current, 0 => [current]
  | current, fuel + 1 =>
    match cameFrom.lookup current.id with
    | none => [current]
    | some prev => constructPath cameFrom prev fuel ++ [current]

/-- Result of a search.  The source either draws a path, logs
`No path exists`, or would throw a `TypeError` reading `null.id` if the
frontier scan ever returned `null` (`nullCrash`); `outOfFuel` is the
fuel artefact of the embedding. -/
inductive AResult where
  | found : List Node → AResult
  | notFound : AResult
  | nullCrash : AResult
  | outOfFuel : AResult
deriving DecidableEq

/-- The mutable locals of `runAStar`. -/
structure LoopState where
  frontier : List Node
  cameFrom : List (ℕ × Node)
  costFromStart : CostMap
  estimatedTotalCost : CostMap

/-- One relaxation of `runAStar`'s neighbour loop:
`tentCost = costFromStart.get(current.id) + weight`; on strict
improvement update `cameFrom`, `costFromStart`, `estimatedTotalCost`
and (re-)insert the neighbour. -/
noncomputable def relaxNeighbour (goalNode current : Node) (st : LoopState)
    (nw : Node × ℝ) : LoopState :=
  let tentCost := mapGet st.costFromStart current.id + (nw.2 : WithTop ℝ)
  if tentCost < mapGet st.costFromStart nw.1.id then
    { frontier := frontierAdd nw.1 st.frontier
      cameFrom := (nw.1.id, current) :: st.cameFrom
      costFromStart := (nw.1.id, tentCost) :: st.costFromStart
      estimatedTotalCost :=
        (nw.1.id, tentCost + ((heuristic nw.1 goalNode : ℝ) : WithTop ℝ)) ::
          st.estimatedTotalCost }
  else st

/-- The `while (frontier.size > 0)` loop of `runAStar`. -/
noncomputable def runAStarLoop (graph : ℕ → List (Node × ℝ)) (goalNode : Node) :
    ℕ → LoopState → AResult
  | 0, _ => .outOfFuel
  | fuel + 1, st =>
    if st.frontier = [] then .notFound
    else
      match getLowestEstimatecCost st.frontier st.estimatedTotalCost with
      | none => .nullCrash
      | some currentNode =>
        if currentNode = goalNode then
          .found (constructPath st.cameFrom currentNode st.cameFrom.length)
        else
          runAStarLoop graph goalNode fuel
            ((graph currentNode.id).foldl (relaxNeighbour goalNode currentNode)
              { st with frontier := st.frontier.erase currentNode })

/-- `runAStar(startNode, goalNode)` over an explicit adjacency map and
node list (the source reads the globals `graph` and `nodes`): the
frontier starts as `{startNode}`, every node's costs are initialised to
`Infinity`, then the start's cost is 0 and its estimate the
heuristic. -/
noncomputable def runAStar (graph : ℕ → List (Node × ℝ)) (nodes : List Node)
    (startNode goalNode : Node) (fuel : ℕ) : AResult :=
  runAStarLoop graph goalNode fuel
    { frontier := [startNode]
      cameFrom := []
      costFromStart :=
        (startNode.id, (0 : WithTop ℝ)) :: nodes.map (fun n => (n.id, (⊤ : WithTop ℝ)))
      estimatedTotalCost :=
        (startNode.id, ((heuristic startNode goalNode : ℝ) : WithTop ℝ)) ::
          nodes.map (fun n => (n.id, (⊤ : WithTop ℝ))) }

/-! ## Whole-state view (for the frame claim)

The globals of the source that the core reads and writes, and the two
entry points as state transformers. -/

/-- The global mutable state of the simulation core. -/
structure SimState where
  obstacles : List Obstacle
  nodes : List Node
  edges : List Edge
  graph : ℕ → List (Node × ℝ)

/-- `buildGraph()` as a state transformer: clears and refills `edges`
and `graph`; reads but never writes `obstacles` and `nodes`. -/
noncomputable def buildGraphS (st : SimState) : SimState :=
  { st with
    edges := buildEdges st.obstacles st.nodes
    graph := graphOf (buildEdges st.obstacles st.nodes) }

/-- `runAStar(startNode, goalNode)` as a state transformer: all its
writes go to function-local maps, so the global state is returned
untouched alongside the search result. -/
noncomputable def runAStarS (st : SimState) (startNode goalNode : Node) (fuel : ℕ) :
    SimState × AResult :=
  (st, runAStar st.graph st.nodes startNode goalNode fuel)

/-! ## The search invariant (for path validity)

`runAStar` maintains: costs are nonnegative with the start pinned at 0;
the start never acquires a predecessor; every `cameFrom` entry is backed
by an adjacency edge, its parent is the start or itself has an entry,
and parents strictly precede children in the lexicographic
`(costFromStart, depth)` order — which makes the predecessor chains
finite and rooted at the start.  Frontier members are nodes of the node
list and are the start or have an entry. -/

/-- Strict lexicographic comparison of `(cost, depth)` between two node
ids. -/
def costDepthLt (cost : CostMap) (depth : ℕ → ℕ) (a b : ℕ) : Prop :=
  mapGet cost a < mapGet cost b ∨
    (mapGet cost a = mapGet cost b ∧ depth a < depth b)

open Classical in
/-- The keys of the predecessor map lexicographically at or below
`j`. -/
noncomputable def keysBelow (cf : List (ℕ × Node)) (cost : CostMap) (depth : ℕ → ℕ)
    (j : ℕ) : Finset ℕ :=
  (cf.map Prod.fst).toFinset.filter (fun k => costDepthLt cost depth k j ∨ k = j)

/-- The invariant of `runAStar`'s loop state. -/
structure AInv (graph : ℕ → List (Node × ℝ)) (nodesL : List Node) (startN : Node)
    (st : LoopState) : Prop where
  nn : ∀ id, 0 ≤ mapGet st.costFromStart id
  zstart : mapGet st.costFromStart startN.id = 0
  startNone : st.cameFrom.lookup startN.id = none
  edge : ∀ id u, st.cameFrom.lookup id = some u →
    ∃ nbr w, (nbr, w) ∈ graph u.id ∧ nbr.id = id
  vmem : ∀ id u, st.cameFrom.lookup id = some u → u ∈ nodesL
  pdom : ∀ id u, st.cameFrom.lookup id = some u →
    u = startN ∨ (st.cameFrom.lookup u.id).isSome = true
  lex : ∃ depth : ℕ → ℕ, ∀ id u, st.cameFrom.lookup id = some u →
    costDepthLt st.costFromStart depth u.id id
  fdom : ∀ n ∈ st.frontier, n = startN ∨ (st.cameFrom.lookup n.id).isSome = true
  fmem : ∀ n ∈ st.frontier, n ∈ nodesL

/-! ## Specification-side graph notions

Rendering of the spec's talk of paths, path costs and the id-uniqueness
invariant of the data model ("Node ids are assigned monotonically and
never reused ... uniqueness is an invariant the builder relies on"). -/

/-- `IsPathCost graph p c`: `p` is a nonempty path in the adjacency
graph (each consecutive pair is an adjacency entry) and `c` is the sum
of the weights of the entries used. -/
inductive IsPathCost (graph : ℕ → List (Node × ℝ)) : List Node → ℝ → Prop where
  | single (a : Node) : IsPathCost graph [a] 0
  | cons {a b : Node} {rest : List Node} {w c : ℝ} :
      (b, w) ∈ graph a.id → IsPathCost graph (b :: rest) c →
      IsPathCost graph (a :: b :: rest) (w + c)

/-- The node-id uniqueness invariant of the data model. -/
def idUnique (l : List Node) : Prop :=
  ∀ a ∈ l, ∀ b ∈ l, a.id = b.id → a = b

/-! ## Geometry kernel: characterisation of `lineIntersectsLine`

The code's λ/γ formulas solve the 2×2 linear system by Cramer's rule
(γ measures from the far endpoint, so the geometric parameter along
`b1 b2` is `1 - γ`); the strict open-interval test therefore detects
exactly the strict transversal crossings. -/

theorem lineIntersectsLine_eq_true_iff (a1 a2 b1 b2 : Pt) :
    lineIntersectsLine a1 a2 b1 b2 = true ↔ StrictCross a1 a2 b1 b2 := by
  by_cases hdet : detQ a1 a2 b1 b2 = 0
  · simp [lineIntersectsLine, StrictCross, hdet]
  · simp only [lineIntersectsLine, StrictCross, if_neg hdet, decide_eq_true_eq]
    constructor
    · rintro ⟨h1, h2, h3, h4⟩
      refine ⟨hdet,
        ((b2.y - b1.y) * (b2.x - a1.x) + (b1.x - b2.x) * (b2.y - a1.y)) / detQ a1 a2 b1 b2,
        1 - ((a1.y - a2.y) * (b2.x - a1.x) + (a2.x - a1.x) * (b2.y - a1.y)) / detQ a1 a2 b1 b2,
        h1, h2, by linarith, by linarith, ?_⟩
      simp only [segPt, Pt.mk.injEq, detQ] at hdet ⊢
      constructor
      · field_simp
        ring
      · field_simp
        ring
    · rintro ⟨-, t, s, ht0, ht1, hs0, hs1, heq⟩
      simp only [segPt, Pt.mk.injEq] at heq
      obtain ⟨e1, e2⟩ := heq
      have hl : ((b2.y - b1.y) * (b2.x - a1.x) + (b1.x - b2.x) * (b2.y - a1.y)) /
          detQ a1 a2 b1 b2 = t := by
        rw [div_eq_iff hdet]
        simp only [detQ]
        linear_combination (b1.y - b2.y) * e1 + (b2.x - b1.x) * e2
      have hg : ((a1.y - a2.y) * (b2.x - a1.x) + (a2.x - a1.x) * (b2.y - a1.y)) /
          detQ a1 a2 b1 b2 = 1 - s := by
        rw [div_eq_iff hdet]
        simp only [detQ]
        linear_combination (a2.y - a1.y) * e1 + (a1.x - a2.x) * e2
      rw [hl, hg]
      exact ⟨ht0, ht1, by linarith, by linarith⟩


/-! ## Geometry kernel: corner touches and edge runs -/


theorem detQ_degenerate (a b p : Pt) : detQ a b p p = 0 := by
  simp [detQ]

theorem onSeg_left (a b : Pt) : OnSeg a b a :=
  ⟨0, le_refl 0, zero_le_one, by simp [segPt]⟩

theorem onSeg_right (a b : Pt) : OnSeg a b b := by
  refine ⟨1, zero_le_one, le_refl 1, ?_⟩
  obtain ⟨bx, byy⟩ := b
  simp only [segPt, Pt.mk.injEq]
  constructor <;> ring

theorem pointInRect_closed {p : Pt} {r : Obstacle} (h : pointInRect p r = true) :
    InClosedRect p r := by
  simp only [pointInRect, decide_eq_true_eq] at h
  exact ⟨le_of_lt h.1, le_of_lt h.2.1, le_of_lt h.2.2.1, le_of_lt h.2.2.2⟩

theorem pointInRect_corner {r : Obstacle} {c : Pt} (hc : c ∈ rectCorners r) :
    pointInRect c r = false := by
  simp only [rectCorners, List.mem_cons, List.not_mem_nil, or_false] at hc
  rcases hc with h | h | h | h <;> subst h <;>
    simp only [pointInRect, decide_eq_false_iff_not] <;>
    rintro ⟨h1, h2, h3, h4⟩ <;> linarith

theorem segPt_on_rectEdge_closed {r : Obstacle} (hw : 0 ≤ r.width) (hh : 0 ≤ r.height)
    {pq : Pt × Pt} (hpq : pq ∈ rectEdges r) {s : ℚ} (hs0 : 0 ≤ s) (hs1 : s ≤ 1) :
    InClosedRect (segPt pq.1 pq.2 s) r := by
  have h1 : 0 ≤ s * r.width := mul_nonneg hs0 hw
  have h2 : s * r.width ≤ r.width := by nlinarith
  have h3 : 0 ≤ s * r.height := mul_nonneg hs0 hh
  have h4 : s * r.height ≤ r.height := by nlinarith
  simp only [rectEdges, List.mem_cons, List.not_mem_nil, or_false] at hpq
  rcases hpq with h | h | h | h <;> subst h <;>
    refine ⟨?_, ?_, ?_, ?_⟩ <;> simp only [segPt] <;> nlinarith

theorem mul_self_eq_zero_aux1 {s w : ℚ} (hs0 : 0 < s) (h : s * w = 0) : w = 0 := by
  rcases mul_eq_zero.1 h with h2 | h2
  · linarith
  · exact h2

theorem mul_self_eq_zero_aux2 {s w : ℚ} (hs1 : s < 1) (h : w = s * w) : w = 0 := by
  have h2 : w * (1 - s) = 0 := by linear_combination h
  rcases mul_eq_zero.1 h2 with h3 | h3
  · exact h3
  · linarith

theorem corner_on_edge_interior {r : Obstacle} {c : Pt} {pq : Pt × Pt} {s : ℚ}
    (hc : c ∈ rectCorners r) (hpq : pq ∈ rectEdges r) (hs0 : 0 < s) (hs1 : s < 1)
    (heq : c = segPt pq.1 pq.2 s) : pq.1 = pq.2 := by
  simp only [rectCorners, List.mem_cons, List.not_mem_nil, or_false] at hc
  simp only [rectEdges, List.mem_cons, List.not_mem_nil, or_false] at hpq
  rcases hpq with h | h | h | h <;> subst h
  · rcases hc with h | h | h | h <;> subst h <;>
      simp only [segPt, Pt.mk.injEq] at heq ⊢ <;> obtain ⟨hx, hy⟩ := heq
    · have hd : r.width = 0 := mul_self_eq_zero_aux1 hs0 (by linear_combination (-1 : ℚ) * hx)
      exact ⟨by linarith, trivial⟩
    · have hd : r.width = 0 := mul_self_eq_zero_aux2 hs1 (by linear_combination hx)
      exact ⟨by linarith, trivial⟩
    · have hd : r.width = 0 := mul_self_eq_zero_aux1 hs0 (by linear_combination (-1 : ℚ) * hx)
      exact ⟨by linarith, trivial⟩
    · have hd : r.width = 0 := mul_self_eq_zero_aux2 hs1 (by linear_combination hx)
      exact ⟨by linarith, trivial⟩
  · rcases hc with h | h | h | h <;> subst h <;>
      simp only [segPt, Pt.mk.injEq] at heq ⊢ <;> obtain ⟨hx, hy⟩ := heq
    · have hd : r.height = 0 := mul_self_eq_zero_aux1 hs0 (by linear_combination (-1 : ℚ) * hy)
      exact ⟨trivial, by linarith⟩
    · have hd : r.height = 0 := mul_self_eq_zero_aux1 hs0 (by linear_combination (-1 : ℚ) * hy)
      exact ⟨trivial, by linarith⟩
    · have hd : r.height = 0 := mul_self_eq_zero_aux2 hs1 (by linear_combination hy)
      exact ⟨trivial, by linarith⟩
    · have hd : r.height = 0 := mul_self_eq_zero_aux2 hs1 (by linear_combination hy)
      exact ⟨trivial, by linarith⟩
  · rcases hc with h | h | h | h <;> subst h <;>
      simp only [segPt, Pt.mk.injEq] at heq ⊢ <;> obtain ⟨hx, hy⟩ := heq
    · have hd : r.height = 0 := mul_self_eq_zero_aux1 hs0 (by linear_combination (-1 : ℚ) * hy)
      exact ⟨trivial, by linarith⟩
    · have hd : r.height = 0 := mul_self_eq_zero_aux1 hs0 (by linear_combination (-1 : ℚ) * hy)
      exact ⟨trivial, by linarith⟩
    · have hd : r.height = 0 := mul_self_eq_zero_aux2 hs1 (by linear_combination hy)
      exact ⟨trivial, by linarith⟩
    · have hd : r.height = 0 := mul_self_eq_zero_aux2 hs1 (by linear_combination hy)
      exact ⟨trivial, by linarith⟩
  · rcases hc with h | h | h | h <;> subst h <;>
      simp only [segPt, Pt.mk.injEq] at heq ⊢ <;> obtain ⟨hx, hy⟩ := heq
    · have hd : r.width = 0 := mul_self_eq_zero_aux1 hs0 (by linear_combination (-1 : ℚ) * hx)
      exact ⟨by linarith, trivial⟩
    · have hd : r.width = 0 := mul_self_eq_zero_aux2 hs1 (by linear_combination hx)
      exact ⟨by linarith, trivial⟩
    · have hd : r.width = 0 := mul_self_eq_zero_aux1 hs0 (by linear_combination (-1 : ℚ) * hx)
      exact ⟨by linarith, trivial⟩
    · have hd : r.width = 0 := mul_self_eq_zero_aux2 hs1 (by linear_combination hx)
      exact ⟨by linarith, trivial⟩



theorem lineIntersectsRect_eq_true_iff (a b : Pt) (r : Obstacle) :
    lineIntersectsRect a b r = true ↔
      (∃ pq ∈ rectEdges r, StrictCross a b pq.1 pq.2) ∨
        pointInRect a r = true ∨ pointInRect b r = true := by
  simp only [lineIntersectsRect, Bool.or_eq_true, List.any_eq_true,
    lineIntersectsLine_eq_true_iff]
  exact or_assoc

theorem lineIntersectsRect_corner_touch {a b : Pt} {r : Obstacle} {c : Pt}
    (hw : 0 ≤ r.width) (hh : 0 ≤ r.height) (hc : c ∈ rectCorners r)
    (honly : ∀ p, OnSeg a b p → InClosedRect p r → p = c) :
    lineIntersectsRect a b r = false := by
  by_contra hne
  have htrue : lineIntersectsRect a b r = true := by
    cases h : lineIntersectsRect a b r
    · exact absurd h hne
    · rfl
  rcases (lineIntersectsRect_eq_true_iff a b r).1 htrue with ⟨pq, hpq, hcross⟩ | hin | hin
  · obtain ⟨hdet, t, s, ht0, ht1, hs0, hs1, heq⟩ := hcross
    have hz1 : OnSeg a b (segPt a b t) := ⟨t, le_of_lt ht0, le_of_lt ht1, rfl⟩
    have hz2 : InClosedRect (segPt a b t) r := by
      rw [heq]
      exact segPt_on_rectEdge_closed hw hh hpq (le_of_lt hs0) (le_of_lt hs1)
    have hzc := honly _ hz1 hz2
    have hcs : c = segPt pq.1 pq.2 s := by rw [← hzc, heq]
    have hdeg := corner_on_edge_interior hc hpq hs0 hs1 hcs
    exact hdet (by rw [hdeg]; exact detQ_degenerate a b pq.2)
  · have hca := honly a (onSeg_left a b) (pointInRect_closed hin)
    rw [hca, pointInRect_corner hc] at hin
    exact absurd hin (by simp)
  · have hcb := honly b (onSeg_right a b) (pointInRect_closed hin)
    rw [hcb, pointInRect_corner hc] at hin
    exact absurd hin (by simp)



theorem lineIntersectsRect_along_edge {a b : Pt} {r : Obstacle} {pq : Pt × Pt}
    (hpq : pq ∈ rectEdges r) (ha : OnSeg pq.1 pq.2 a) (hb : OnSeg pq.1 pq.2 b) :
    lineIntersectsRect a b r = false := by
  obtain ⟨ta, hta0, hta1, hae⟩ := ha
  obtain ⟨tb, htb0, htb1, hbe⟩ := hb
  by_contra hne
  have htrue : lineIntersectsRect a b r = true := by
    cases h : lineIntersectsRect a b r
    · exact absurd h hne
    · rfl
  simp only [rectEdges, List.mem_cons, List.not_mem_nil, or_false] at hpq
  rcases hpq with h | h | h | h <;> subst h
  · -- segment lies on the top edge: a.y = b.y = r.y
    have hay : a.y = r.y := by rw [hae]; simp [segPt]
    have hby : b.y = r.y := by rw [hbe]; simp [segPt]
    rcases (lineIntersectsRect_eq_true_iff a b r).1 htrue with ⟨ed, hed, hcross⟩ | hin | hin
    · obtain ⟨hdet, t, s, ht0, ht1, hs0, hs1, heq⟩ := hcross
      have hyc := congrArg Pt.y heq
      simp only [segPt] at hyc
      simp only [rectEdges, List.mem_cons, List.not_mem_nil, or_false] at hed
      rcases hed with he | he | he | he <;> subst he
      · exact hdet (by simp only [detQ]; rw [hay, hby]; ring)
      · have hd : r.height = 0 := mul_self_eq_zero_aux1 hs0
          (by linear_combination (-1 : ℚ) * hyc + hay + t * hby - t * hay)
        exact hdet (by simp only [detQ]; rw [hd]; ring)
      · have hd : r.height = 0 := mul_self_eq_zero_aux1 hs0
          (by linear_combination (-1 : ℚ) * hyc + hay + t * hby - t * hay)
        exact hdet (by simp only [detQ]; rw [hd]; ring)
      · exact hdet (by simp only [detQ]; rw [hay, hby]; ring)
    · simp only [pointInRect, decide_eq_true_eq] at hin
      linarith [hin.2.2.1]
    · simp only [pointInRect, decide_eq_true_eq] at hin
      linarith [hin.2.2.1]
  · -- left edge: a.x = b.x = r.x
    have hax : a.x = r.x := by rw [hae]; simp [segPt]
    have hbx : b.x = r.x := by rw [hbe]; simp [segPt]
    rcases (lineIntersectsRect_eq_true_iff a b r).1 htrue with ⟨ed, hed, hcross⟩ | hin | hin
    · obtain ⟨hdet, t, s, ht0, ht1, hs0, hs1, heq⟩ := hcross
      have hxc := congrArg Pt.x heq
      simp only [segPt] at hxc
      simp only [rectEdges, List.mem_cons, List.not_mem_nil, or_false] at hed
      rcases hed with he | he | he | he <;> subst he
      · have hd : r.width = 0 := mul_self_eq_zero_aux1 hs0
          (by linear_combination (-1 : ℚ) * hxc + hax + t * hbx - t * hax)
        exact hdet (by simp only [detQ]; rw [hd]; ring)
      · exact hdet (by simp only [detQ]; rw [hax, hbx]; ring)
      · exact hdet (by simp only [detQ]; rw [hax, hbx]; ring)
      · have hd : r.width = 0 := mul_self_eq_zero_aux1 hs0
          (by linear_combination (-1 : ℚ) * hxc + hax + t * hbx - t * hax)
        exact hdet (by simp only [detQ]; rw [hd]; ring)
    · simp only [pointInRect, decide_eq_true_eq] at hin
      linarith [hin.1]
    · simp only [pointInRect, decide_eq_true_eq] at hin
      linarith [hin.1]
  · -- right edge: a.x = b.x = r.x + r.width
    have hax : a.x = r.x + r.width := by rw [hae]; simp [segPt]
    have hbx : b.x = r.x + r.width := by rw [hbe]; simp [segPt]
    rcases (lineIntersectsRect_eq_true_iff a b r).1 htrue with ⟨ed, hed, hcross⟩ | hin | hin
    · obtain ⟨hdet, t, s, ht0, ht1, hs0, hs1, heq⟩ := hcross
      have hxc := congrArg Pt.x heq
      simp only [segPt] at hxc
      simp only [rectEdges, List.mem_cons, List.not_mem_nil, or_false] at hed
      rcases hed with he | he | he | he <;> subst he
      · have hd : r.width = 0 := mul_self_eq_zero_aux2 hs1
          (by linear_combination hxc - hax - t * hbx + t * hax)
        exact hdet (by simp only [detQ]; rw [hd]; ring)
      · exact hdet (by simp only [detQ]; rw [hax, hbx]; ring)
      · exact hdet (by simp only [detQ]; rw [hax, hbx]; ring)
      · have hd : r.width = 0 := mul_self_eq_zero_aux2 hs1
          (by linear_combination hxc - hax - t * hbx + t * hax)
        exact hdet (by simp only [detQ]; rw [hd]; ring)
    · simp only [pointInRect, decide_eq_true_eq] at hin
      linarith [hin.2.1]
    · simp only [pointInRect, decide_eq_true_eq] at hin
      linarith [hin.2.1]
  · -- bottom edge: a.y = b.y = r.y + r.height
    have hay : a.y = r.y + r.height := by rw [hae]; simp [segPt]
    have hby : b.y = r.y + r.height := by rw [hbe]; simp [segPt]
    rcases (lineIntersectsRect_eq_true_iff a b r).1 htrue with ⟨ed, hed, hcross⟩ | hin | hin
    · obtain ⟨hdet, t, s, ht0, ht1, hs0, hs1, heq⟩ := hcross
      have hyc := congrArg Pt.y heq
      simp only [segPt] at hyc
      simp only [rectEdges, List.mem_cons, List.not_mem_nil, or_false] at hed
      rcases hed with he | he | he | he <;> subst he
      · exact hdet (by simp only [detQ]; rw [hay, hby]; ring)
      · have hd : r.height = 0 := mul_self_eq_zero_aux2 hs1
          (by linear_combination hyc - hay - t * hby + t * hay)
        exact hdet (by simp only [detQ]; rw [hd]; ring)
      · have hd : r.height = 0 := mul_self_eq_zero_aux2 hs1
          (by linear_combination hyc - hay - t * hby + t * hay)
        exact hdet (by simp only [detQ]; rw [hd]; ring)
      · exact hdet (by simp only [detQ]; rw [hay, hby]; ring)
    · simp only [pointInRect, decide_eq_true_eq] at hin
      linarith [hin.2.2.2]
    · simp only [pointInRect, decide_eq_true_eq] at hin
      linarith [hin.2.2.2]



/-! ## Symmetry of the visibility test, and the blocking
characterisation (claims C7 and C2) -/


theorem detQ_swap (a b p q : Pt) : detQ b a p q = -detQ a b p q := by
  simp only [detQ]
  ring

theorem segPt_swap (a b : Pt) (t : ℚ) : segPt b a (1 - t) = segPt a b t := by
  simp only [segPt, Pt.mk.injEq]
  constructor <;> ring

theorem strictCross_swap_mp {a b p q : Pt} (h : StrictCross a b p q) :
    StrictCross b a p q := by
  obtain ⟨hdet, t, s, ht0, ht1, hs0, hs1, heq⟩ := h
  refine ⟨by rw [detQ_swap]; exact neg_ne_zero.2 hdet, 1 - t, s,
    by linarith, by linarith, hs0, hs1, ?_⟩
  rw [segPt_swap]
  exact heq

theorem lineIntersectsLine_swap (a b p q : Pt) :
    lineIntersectsLine a b p q = lineIntersectsLine b a p q := by
  cases h1 : lineIntersectsLine a b p q <;> cases h2 : lineIntersectsLine b a p q <;>
    try rfl
  · rw [lineIntersectsLine_eq_true_iff] at h2
    have h3 := strictCross_swap_mp h2
    rw [← lineIntersectsLine_eq_true_iff, h1] at h3
    exact h3
  · rw [lineIntersectsLine_eq_true_iff] at h1
    have h3 := strictCross_swap_mp h1
    rw [← lineIntersectsLine_eq_true_iff, h2] at h3
    exact h3.symm

theorem lineIntersectsRect_swap (a b : Pt) (r : Obstacle) :
    lineIntersectsRect a b r = lineIntersectsRect b a r := by
  simp only [lineIntersectsRect, lineIntersectsLine_swap a b]
  cases pointInRect a r <;> cases pointInRect b r <;> simp

/-- Claim C7: visibility testing is symmetric in its two endpoints: for
all points `a`, `b` and every obstacle list, `isVisible(a, b)` returns
the same boolean as `isVisible(b, a)`. -/
theorem isVisible_symm (obstacles : List Obstacle) (a b : Pt) :
    isVisible obstacles a b = isVisible obstacles b a := by
  simp only [isVisible]
  induction obstacles with
  | nil => rfl
  | cons o os ih => simp only [List.all_cons, ih, lineIntersectsRect_swap a b]

/-- Claim C2: `lineIntersectsRect` reports a blocked segment exactly
when the segment strictly crosses one of the rectangle's four boundary
edges or an endpoint lies strictly inside; in particular a segment
meeting the (nonnegative-sized) rectangle only at a corner, or running
inside one of its edges, is not blocked. -/
theorem lineIntersectsRect_spec (a b : Pt) (r : Obstacle) :
    (lineIntersectsRect a b r = true ↔
      (∃ pq ∈ rectEdges r, StrictCross a b pq.1 pq.2) ∨
        pointInRect a r = true ∨ pointInRect b r = true) ∧
    (0 ≤ r.width → 0 ≤ r.height → ∀ c ∈ rectCorners r,
      (∀ p, OnSeg a b p → InClosedRect p r → p = c) →
      lineIntersectsRect a b r = false) ∧
    (∀ pq ∈ rectEdges r, OnSeg pq.1 pq.2 a → OnSeg pq.1 pq.2 b →
      lineIntersectsRect a b r = false) :=
  ⟨lineIntersectsRect_eq_true_iff a b r,
   fun hw hh _c hc honly => lineIntersectsRect_corner_touch hw hh hc honly,
   fun _pq hpq ha hb => lineIntersectsRect_along_edge hpq ha hb⟩

/-- Witness for C2: on the rectangle `{x:4, y:4, width:2, height:2}`,
the segment from the origin to the corner `(4,4)` is not blocked, a
segment inside the top edge is not blocked, and a segment ending
strictly inside is blocked. -/
theorem lineIntersectsRect_spec_witness :
    lineIntersectsRect ⟨0, 0⟩ ⟨4, 4⟩ ⟨4, 4, 2, 2⟩ = false ∧
    lineIntersectsRect ⟨9/2, 4⟩ ⟨11/2, 4⟩ ⟨4, 4, 2, 2⟩ = false ∧
    lineIntersectsRect ⟨0, 0⟩ ⟨5, 5⟩ ⟨4, 4, 2, 2⟩ = true := by
  refine ⟨?_, ?_, ?_⟩
  · refine (lineIntersectsRect_spec ⟨0, 0⟩ ⟨4, 4⟩ ⟨4, 4, 2, 2⟩).2.1
      (by norm_num) (by norm_num) ⟨4, 4⟩ (by simp [rectCorners]) ?_
    rintro p ⟨t, ht0, ht1, rfl⟩ ⟨h1, h2, h3, h4⟩
    have ht : t = 1 := by
      norm_num [segPt] at h1
      linarith
    subst ht
    simp only [segPt, Pt.mk.injEq]
    norm_num
  · refine (lineIntersectsRect_spec ⟨9/2, 4⟩ ⟨11/2, 4⟩ ⟨4, 4, 2, 2⟩).2.2
      (⟨4, 4⟩, ⟨6, 4⟩) (by simp [rectEdges]; norm_num) ?_ ?_
    · exact ⟨1/4, by norm_num, by norm_num, by simp [segPt, Pt.mk.injEq]; norm_num⟩
    · exact ⟨3/4, by norm_num, by norm_num, by simp [segPt, Pt.mk.injEq]; norm_num⟩
  · refine (lineIntersectsRect_spec ⟨0, 0⟩ ⟨5, 5⟩ ⟨4, 4, 2, 2⟩).1.2
      (Or.inr (Or.inr ?_))
    simp only [pointInRect, decide_eq_true_eq]
    norm_num



/-! ## The visibility-graph builder: edge symmetry, weights, same-wall
pruning, admissibility of the heuristic, and the frame property
(claims C4, C5, C8, C9) -/


theorem pairEdges_mem {obstacles : List Obstacle} {a : Node} {rest : List Node} {e : Edge} :
    e ∈ pairEdges obstacles a rest ↔
      ∃ b ∈ rest, (allowPair a b && isVisible obstacles a.pt b.pt) = true ∧
        (e = ⟨a, b⟩ ∨ e = ⟨b, a⟩) := by
  simp only [pairEdges, List.mem_flatMap]
  constructor
  · rintro ⟨b, hb, he⟩
    by_cases h : (allowPair a b && isVisible obstacles a.pt b.pt) = true
    · rw [if_pos h] at he
      simp only [List.mem_cons, List.not_mem_nil, or_false] at he
      exact ⟨b, hb, h, he⟩
    · rw [if_neg h] at he
      exact absurd he (List.not_mem_nil e)
  · rintro ⟨b, hb, h, he⟩
    refine ⟨b, hb, ?_⟩
    rw [if_pos h]
    rcases he with he | he <;> simp [he]

theorem buildEdges_mem {obstacles : List Obstacle} {e : Edge} :
    ∀ {l : List Node}, e ∈ buildEdges obstacles l →
      ∃ a ∈ l, ∃ b ∈ l, (allowPair a b && isVisible obstacles a.pt b.pt) = true ∧
        (e = ⟨a, b⟩ ∨ e = ⟨b, a⟩) := by
  intro l
  induction l with
  | nil => intro h; exact absurd h (List.not_mem_nil e)
  | cons a rest ih =>
    intro h
    rw [buildEdges, List.mem_append] at h
    rcases h with h | h
    · obtain ⟨b, hb, hcond, he⟩ := pairEdges_mem.1 h
      exact ⟨a, List.mem_cons_self a rest, b, List.mem_cons_of_mem a hb, hcond, he⟩
    · obtain ⟨x, hx, y, hy, hcond, he⟩ := ih h
      exact ⟨x, List.mem_cons_of_mem a hx, y, List.mem_cons_of_mem a hy, hcond, he⟩

theorem buildEdges_reverse_mem {obstacles : List Obstacle} {e : Edge} :
    ∀ {l : List Node}, e ∈ buildEdges obstacles l →
      (⟨e.toN, e.fromN⟩ : Edge) ∈ buildEdges obstacles l := by
  intro l
  induction l with
  | nil => intro h; exact absurd h (List.not_mem_nil e)
  | cons a rest ih =>
    intro h
    rw [buildEdges, List.mem_append] at h ⊢
    rcases h with h | h
    · left
      obtain ⟨b, hb, hcond, he⟩ := pairEdges_mem.1 h
      refine pairEdges_mem.2 ⟨b, hb, hcond, ?_⟩
      rcases he with he | he <;> subst he <;> simp
    · right
      exact ih h

theorem buildEdges_endpoints_mem {obstacles : List Obstacle} {e : Edge}
    {l : List Node} (h : e ∈ buildEdges obstacles l) :
    e.fromN ∈ l ∧ e.toN ∈ l := by
  obtain ⟨a, ha, b, hb, _, he⟩ := buildEdges_mem h
  rcases he with he | he <;> subst he <;> exact ⟨by assumption, by assumption⟩

theorem graphOf_go (E : List Edge) (g : ℕ → List (Node × ℝ)) (id : ℕ) :
    (E.foldl
      (fun g e => fun id =>
        if id = e.fromN.id then
          g id ++ [(e.toN, hypot (e.fromN.x - e.toN.x) (e.fromN.y - e.toN.y))]
        else g id)
      g) id =
    g id ++ (E.filter (fun e => e.fromN.id == id)).map
      (fun e => (e.toN, hypot (e.fromN.x - e.toN.x) (e.fromN.y - e.toN.y))) := by
  induction E generalizing g with
  | nil => simp
  | cons e E ih =>
    rw [List.foldl_cons, ih, List.filter_cons]
    by_cases h : id = e.fromN.id
    · rw [if_pos h]
      have hb : (e.fromN.id == id) = true := by simp [h]
      rw [hb]
      simp [List.append_assoc]
    · rw [if_neg h]
      have hb : (e.fromN.id == id) = false := by simp; exact fun hh => h hh.symm
      rw [hb]
      simp

theorem graphOf_mem {E : List Edge} {id : ℕ} {n : Node} {w : ℝ} :
    (n, w) ∈ graphOf E id ↔
      ∃ e ∈ E, e.fromN.id = id ∧ e.toN = n ∧
        w = hypot (e.fromN.x - e.toN.x) (e.fromN.y - e.toN.y) := by
  rw [graphOf, graphOf_go]
  simp only [List.nil_append, List.mem_map, List.mem_filter, beq_iff_eq]
  constructor
  · rintro ⟨e, ⟨he, hid⟩, hpair⟩
    rw [Prod.mk.injEq] at hpair
    exact ⟨e, he, hid, hpair.1, hpair.2.symm⟩
  · rintro ⟨e, he, hid, hn, hw⟩
    exact ⟨e, ⟨he, hid⟩, by rw [Prod.mk.injEq]; exact ⟨hn, hw.symm⟩⟩



theorem hypot_nonneg (dx dy : ℚ) : 0 ≤ hypot dx dy :=
  Real.sqrt_nonneg _

theorem hypot_rev (dx dy : ℚ) : hypot dx dy = hypot (-dx) (-dy) := by
  unfold hypot
  congr 1
  push_cast
  ring

theorem hypot_eq_complex_abs (dx dy : ℚ) :
    hypot dx dy = Complex.abs ⟨(dx : ℝ), (dy : ℝ)⟩ := by
  rw [Complex.abs_apply, Complex.normSq_mk, hypot]
  congr 1
  ring

theorem hypot_triangle (x1 y1 x2 y2 : ℚ) :
    hypot (x1 + x2) (y1 + y2) ≤ hypot x1 y1 + hypot x2 y2 := by
  rw [hypot_eq_complex_abs, hypot_eq_complex_abs, hypot_eq_complex_abs]
  have h2 : (⟨((x1 + x2 : ℚ) : ℝ), ((y1 + y2 : ℚ) : ℝ)⟩ : ℂ) =
      (⟨(x1 : ℝ), (y1 : ℝ)⟩ : ℂ) + (⟨(x2 : ℝ), (y2 : ℝ)⟩ : ℂ) := by
    apply Complex.ext <;> push_cast <;> simp
  rw [h2]
  exact Complex.abs.add_le _ _

theorem heuristic_self (a : Node) : heuristic a a = 0 := by
  simp [heuristic, hypot]

theorem heuristic_triangle (a b c : Node) :
    heuristic a c ≤ heuristic a b + heuristic b c := by
  have h := hypot_triangle (a.x - b.x) (a.y - b.y) (b.x - c.x) (b.y - c.y)
  have h1 : a.x - b.x + (b.x - c.x) = a.x - c.x := by ring
  have h2 : a.y - b.y + (b.y - c.y) = a.y - c.y := by ring
  rw [h1, h2] at h
  exact h



set_option maxHeartbeats 4000000 in
/-- Concrete edge list of the obstacle-free two-node configuration,
shared by several witnesses below. -/
theorem buildEdges_two_free :
    buildEdges [] [⟨0, 0, 0, none⟩, ⟨1, 10, 0, none⟩] =
      [⟨⟨0, 0, 0, none⟩, ⟨1, 10, 0, none⟩⟩, ⟨⟨1, 10, 0, none⟩, ⟨0, 0, 0, none⟩⟩] := by
  norm_num [buildEdges, pairEdges, allowPair, sameWall, isVisible, Node.pt,
    lineIntersectsRect, rectEdges, lineIntersectsLine, detQ, pointInRect]

set_option maxHeartbeats 4000000 in
/-- Concrete edge list of two aligned corners of wall 0. -/
theorem buildEdges_two_wall :
    buildEdges [] [⟨0, 0, 0, some 0⟩, ⟨1, 1, 0, some 0⟩] =
      [⟨⟨0, 0, 0, some 0⟩, ⟨1, 1, 0, some 0⟩⟩, ⟨⟨1, 1, 0, some 0⟩, ⟨0, 0, 0, some 0⟩⟩] := by
  norm_num [buildEdges, pairEdges, allowPair, sameWall, isVisible, Node.pt,
    lineIntersectsRect, rectEdges, lineIntersectsLine, detQ, pointInRect]

/-- Claim C4: every edge emitted by `buildGraph` has its reverse in the
edge list; every adjacency entry's weight is the Euclidean distance
between the two endpoint positions and is nonnegative; and the two
directions of an edge carry equal weight. -/
theorem buildGraph_edge_symm_weights (obstacles : List Obstacle) (l : List Node) :
    (∀ e ∈ buildEdges obstacles l,
      (⟨e.toN, e.fromN⟩ : Edge) ∈ buildEdges obstacles l) ∧
    (∀ id n w, (n, w) ∈ graphOf (buildEdges obstacles l) id →
      (∃ u, u.id = id ∧ (⟨u, n⟩ : Edge) ∈ buildEdges obstacles l ∧
        w = hypot (u.x - n.x) (u.y - n.y)) ∧ 0 ≤ w) ∧
    (∀ e ∈ buildEdges obstacles l,
      hypot (e.fromN.x - e.toN.x) (e.fromN.y - e.toN.y) =
        hypot (e.toN.x - e.fromN.x) (e.toN.y - e.fromN.y)) := by
  refine ⟨fun e he => buildEdges_reverse_mem he, ?_, ?_⟩
  · intro id n w hmem
    obtain ⟨e, he, hid, hn, hw⟩ := graphOf_mem.1 hmem
    subst hn
    subst hid
    exact ⟨⟨e.fromN, rfl, he, hw⟩, hw ▸ hypot_nonneg _ _⟩
  · intro e _
    rw [hypot_rev]
    congr 1 <;> ring

/-- Witness for C4: the two-node, obstacle-free graph. -/
theorem buildGraph_edge_symm_weights_witness :
    (⟨⟨1, 10, 0, none⟩, ⟨0, 0, 0, none⟩⟩ : Edge) ∈
      buildEdges [] [⟨0, 0, 0, none⟩, ⟨1, 10, 0, none⟩] ∧
    (0 : ℝ) ≤ hypot (0 - 10) (0 - 0) := by
  have h1 := (buildGraph_edge_symm_weights [] [⟨0, 0, 0, none⟩, ⟨1, 10, 0, none⟩]).1
    ⟨⟨0, 0, 0, none⟩, ⟨1, 10, 0, none⟩⟩ (by rw [buildEdges_two_free]; simp)
  have h2 := (buildGraph_edge_symm_weights [] [⟨0, 0, 0, none⟩, ⟨1, 10, 0, none⟩]).2.1
    0 ⟨1, 10, 0, none⟩ (hypot (0 - 10) (0 - 0))
  constructor
  · exact h1
  · refine (h2 ?_).2
    rw [graphOf_mem]
    refine ⟨⟨⟨0, 0, 0, none⟩, ⟨1, 10, 0, none⟩⟩, by rw [buildEdges_two_free]; simp,
      rfl, rfl, rfl⟩




/-- Claim C5: an edge between two nodes of the same `parentWall` exists
only when the pair is axis-aligned, and a same-wall diagonal pair is
never connected. -/
theorem buildGraph_same_wall_aligned (obstacles : List Obstacle) (l : List Node) :
    (∀ e ∈ buildEdges obstacles l, ∀ pw, e.fromN.parentWall = some pw →
      e.toN.parentWall = some pw →
      ((0 < |e.fromN.x - e.toN.x| ∧ |e.fromN.y - e.toN.y| = 0) ∨
       (0 < |e.fromN.y - e.toN.y| ∧ |e.fromN.x - e.toN.x| = 0))) ∧
    (∀ e ∈ buildEdges obstacles l, ∀ pw, e.fromN.parentWall = some pw →
      e.toN.parentWall = some pw →
      ¬(0 < |e.fromN.x - e.toN.x| ∧ 0 < |e.fromN.y - e.toN.y|)) := by
  have main : ∀ e ∈ buildEdges obstacles l, ∀ pw, e.fromN.parentWall = some pw →
      e.toN.parentWall = some pw →
      ((0 < |e.fromN.x - e.toN.x| ∧ |e.fromN.y - e.toN.y| = 0) ∨
       (0 < |e.fromN.y - e.toN.y| ∧ |e.fromN.x - e.toN.x| = 0)) := by
    intro e he pw hf ht
    obtain ⟨a, _, b, _, hcond, hab⟩ := buildEdges_mem he
    rw [Bool.and_eq_true] at hcond
    have hallow := hcond.1
    rcases hab with hab | hab <;> subst hab
    · have hf2 : a.parentWall = some pw := hf
      have ht2 : b.parentWall = some pw := ht
      have hsw : sameWall a b = true := by
        simp [sameWall, hf2, ht2]
      rw [allowPair, if_pos hsw, decide_eq_true_eq] at hallow
      exact hallow
    · have hf2 : b.parentWall = some pw := hf
      have ht2 : a.parentWall = some pw := ht
      have hsw : sameWall a b = true := by
        simp [sameWall, hf2, ht2]
      rw [allowPair, if_pos hsw, decide_eq_true_eq] at hallow
      rcases hallow with ⟨h1, h2⟩ | ⟨h1, h2⟩
      · rw [abs_sub_comm] at h1 h2
        exact Or.inl ⟨h1, h2⟩
      · rw [abs_sub_comm] at h1 h2
        exact Or.inr ⟨h1, h2⟩
  refine ⟨main, fun e he pw hf ht hdiag => ?_⟩
  rcases main e he pw hf ht with ⟨_, h2⟩ | ⟨_, h2⟩
  · rw [h2] at hdiag
    exact lt_irrefl 0 hdiag.2
  · rw [h2] at hdiag
    exact lt_irrefl 0 hdiag.1

/-- Witness for C5: two aligned corners of wall 0 are connected, and
the theorem reports their alignment. -/
theorem buildGraph_same_wall_aligned_witness :
    (0 : ℚ) < |(0 : ℚ) - 1| ∧ |(0 : ℚ) - 0| = 0 := by
  have h := (buildGraph_same_wall_aligned [] [⟨0, 0, 0, some 0⟩, ⟨1, 1, 0, some 0⟩]).1
    ⟨⟨0, 0, 0, some 0⟩, ⟨1, 1, 0, some 0⟩⟩ (by rw [buildEdges_two_wall]; simp) 0 rfl rfl
  rcases h with ⟨h1, h2⟩ | ⟨h1, h2⟩
  · exact ⟨h1, h2⟩
  · exfalso
    norm_num at h1

/-- Claim C8: the heuristic between two nodes is a lower bound on the
total weight of every path between them in the graph built by
`buildGraph` (admissibility via the triangle inequality, since every
edge weight is the Euclidean distance between its endpoints). -/
theorem heuristic_admissible {obstacles : List Obstacle} {nodesL : List Node}
    {p : List Node} {c : ℝ} {a b : Node}
    (hu : idUnique nodesL) (ha : a ∈ nodesL)
    (hp : IsPathCost (graphOf (buildEdges obstacles nodesL)) p c)
    (hhead : p.head? = some a) (hlast : p.getLast? = some b) :
    heuristic a b ≤ c := by
  have main : ∀ q d, IsPathCost (graphOf (buildEdges obstacles nodesL)) q d →
      ∀ u v, u ∈ nodesL → q.head? = some u → q.getLast? = some v →
        heuristic u v ≤ d := by
    intro q d hpath
    induction hpath with
    | single x =>
      intro u v _ hh hl
      simp only [List.head?_cons, Option.some.injEq] at hh
      simp only [List.getLast?_singleton, Option.some.injEq] at hl
      subst hh
      subst hl
      rw [heuristic_self]
    | cons hmem hprev ih =>
      rename_i x y rest w cc
      intro u v hun hh hl
      simp only [List.head?_cons, Option.some.injEq] at hh
      subst hh
      obtain ⟨e, he, hid, hn, hw⟩ := graphOf_mem.1 hmem
      obtain ⟨hfm, htm⟩ := buildEdges_endpoints_mem he
      have hfa : e.fromN = x := hu e.fromN hfm x hun hid
      have hyn : y ∈ nodesL := by rw [← hn]; exact htm
      have hweq : w = heuristic x y := by
        rw [hw, hfa, hn, heuristic]
      have hrec := ih y v hyn rfl hl
      have htri := heuristic_triangle x y v
      rw [hweq]
      linarith
  exact main p c hp a b ha hhead hlast

/-- Witness for C8: the straight two-node path with no obstacles. -/
theorem heuristic_admissible_witness :
    heuristic ⟨0, 0, 0, none⟩ ⟨1, 10, 0, none⟩ ≤ hypot (0 - 10) (0 - 0) + 0 := by
  have hu : idUnique [⟨0, 0, 0, none⟩, ⟨1, 10, 0, none⟩] := by
    intro u hu v hv huv
    simp only [List.mem_cons, List.not_mem_nil, or_false] at hu hv
    rcases hu with hu | hu <;> rcases hv with hv | hv <;> subst hu <;> subst hv <;>
      first | rfl | (exfalso; simp at huv)
  have hpath : IsPathCost (graphOf (buildEdges [] [⟨0, 0, 0, none⟩, ⟨1, 10, 0, none⟩]))
      [⟨0, 0, 0, none⟩, ⟨1, 10, 0, none⟩] (hypot (0 - 10) (0 - 0) + 0) := by
    refine IsPathCost.cons ?_ (IsPathCost.single _)
    rw [graphOf_mem]
    exact ⟨⟨⟨0, 0, 0, none⟩, ⟨1, 10, 0, none⟩⟩, by rw [buildEdges_two_free]; simp,
      rfl, rfl, rfl⟩
  exact heuristic_admissible hu (by simp) hpath rfl rfl

/-- Claim C9: `buildGraph` and `runAStar` leave the obstacle and node
lists untouched; the build writes only the derived edge list and
adjacency map, and the search writes nothing global at all. -/
theorem build_search_frame (st : SimState) (s g : Node) (fuel : ℕ) :
    (buildGraphS st).obstacles = st.obstacles ∧
    (buildGraphS st).nodes = st.nodes ∧
    (runAStarS st s g fuel).1.obstacles = st.obstacles ∧
    (runAStarS st s g fuel).1.nodes = st.nodes ∧
    (runAStarS st s g fuel).1.edges = st.edges ∧
    (runAStarS st s g fuel).1.graph = st.graph :=
  ⟨rfl, rfl, rfl, rfl, rfl, rfl⟩



/-! ## The A* search: frontier scan safety, the trivial search, and the
not-found outcome (claims C10, C6, C3) -/


theorem getLowest_go_mem {est : CostMap} :
    ∀ (l : List Node) (acc : Option Node × WithTop ℝ) {n : Node},
      (l.foldl
        (fun acc node =>
          if mapGet est node.id < acc.2 then (some node, mapGet est node.id) else acc)
        acc).1 = some n →
      n ∈ l ∨ acc.1 = some n := by
  intro l
  induction l with
  | nil => intro acc n h; exact Or.inr h
  | cons x rest ih =>
    intro acc n h
    rw [List.foldl_cons] at h
    rcases ih _ h with h2 | h2
    · exact Or.inl (List.mem_cons_of_mem x h2)
    · by_cases hc : mapGet est x.id < acc.2
      · rw [if_pos hc] at h2
        simp only [Option.some.injEq] at h2
        subst h2
        exact Or.inl (List.mem_cons_self x rest)
      · rw [if_neg hc] at h2
        exact Or.inr h2

theorem getLowest_mem {frontier : List Node} {est : CostMap} {n : Node}
    (h : getLowestEstimatecCost frontier est = some n) : n ∈ frontier := by
  rcases getLowest_go_mem frontier _ h with h2 | h2
  · exact h2
  · exact absurd h2 (by simp)

theorem getLowest_go_isSome {est : CostMap} :
    ∀ (l : List Node) (acc : Option Node × WithTop ℝ), acc.1.isSome →
      (l.foldl
        (fun acc node =>
          if mapGet est node.id < acc.2 then (some node, mapGet est node.id) else acc)
        acc).1.isSome := by
  intro l
  induction l with
  | nil => intro acc h; exact h
  | cons x rest ih =>
    intro acc h
    rw [List.foldl_cons]
    apply ih
    by_cases hc : mapGet est x.id < acc.2
    · rw [if_pos hc]; rfl
    · rw [if_neg hc]; exact h

theorem getLowest_isSome {frontier : List Node} {est : CostMap}
    (hne : frontier ≠ [])
    (hfin : ∀ n ∈ frontier, mapGet est n.id < ⊤) :
    ∃ n, getLowestEstimatecCost frontier est = some n := by
  obtain ⟨x, rest, rfl⟩ := List.exists_cons_of_ne_nil hne
  rw [← Option.isSome_iff_exists]
  unfold getLowestEstimatecCost
  rw [List.foldl_cons, if_pos (by simpa using hfin x (List.mem_cons_self x rest))]
  exact getLowest_go_isSome rest _ rfl



theorem initEst_start (nodes : List Node) (s g : Node) :
    mapGet ((s.id, ((heuristic s g : ℝ) : WithTop ℝ)) ::
      nodes.map (fun n => (n.id, (⊤ : WithTop ℝ)))) s.id =
      ((heuristic s g : ℝ) : WithTop ℝ) := by
  simp [mapGet, List.lookup]

theorem runAStar_self (g : ℕ → List (Node × ℝ)) (nodes : List Node) (s : Node)
    (fuel : ℕ) :
    runAStar g nodes s s (fuel + 1) = .found [s] ∧
    getLowestEstimatecCost [s]
      ((s.id, ((heuristic s s : ℝ) : WithTop ℝ)) ::
        nodes.map (fun n => (n.id, (⊤ : WithTop ℝ)))) = some s := by
  have hsel : getLowestEstimatecCost [s]
      ((s.id, ((heuristic s s : ℝ) : WithTop ℝ)) ::
        nodes.map (fun n => (n.id, (⊤ : WithTop ℝ)))) = some s := by
    unfold getLowestEstimatecCost
    rw [List.foldl_cons, List.foldl_nil,
      if_pos (by rw [initEst_start]; exact WithTop.coe_lt_top _)]
  refine ⟨?_, hsel⟩
  rw [runAStar, runAStarLoop]
  rw [if_neg (by simp)]
  simp only [hsel]
  simp [constructPath]



theorem mapGet_cons (k : ℕ) (v : WithTop ℝ) (m : CostMap) (j : ℕ) :
    mapGet ((k, v) :: m) j = if j = k then v else mapGet m j := by
  by_cases h : j = k
  · subst h
    simp [mapGet, List.lookup]
  · have hb : (j == k) = false := by simpa using h
    simp only [mapGet, List.lookup, hb, if_neg h]

theorem frontierAdd_mem {n m : Node} {f : List Node} :
    n ∈ frontierAdd m f ↔ n = m ∨ n ∈ f := by
  unfold frontierAdd
  by_cases h : m ∈ f
  · rw [if_pos h]
    constructor
    · exact fun hn => Or.inr hn
    · rintro (rfl | hn)
      · exact h
      · exact hn
  · rw [if_neg h]
    simp [List.mem_append, or_comm]

theorem relax_ffin {goalN current : Node} {st : LoopState} {nw : Node × ℝ}
    (h : ∀ n ∈ st.frontier, mapGet st.estimatedTotalCost n.id < ⊤) :
    ∀ n ∈ (relaxNeighbour goalN current st nw).frontier,
      mapGet (relaxNeighbour goalN current st nw).estimatedTotalCost n.id < ⊤ := by
  simp only [relaxNeighbour]
  split_ifs with hc
  · intro n hn
    have hfin : mapGet st.costFromStart current.id + (nw.2 : WithTop ℝ) < ⊤ :=
      lt_of_lt_of_le hc le_top
    have hval : mapGet st.costFromStart current.id + (nw.2 : WithTop ℝ) +
        ((heuristic nw.1 goalN : ℝ) : WithTop ℝ) < ⊤ :=
      WithTop.add_lt_top.2 ⟨hfin, WithTop.coe_lt_top _⟩
    rw [mapGet_cons]
    by_cases hid : n.id = nw.1.id
    · rw [if_pos hid]
      exact hval
    · rw [if_neg hid]
      rcases frontierAdd_mem.1 hn with rfl | hn2
      · exact absurd rfl hid
      · exact h n hn2
  · exact h

theorem relax_fold_ffin (goalN current : Node) :
    ∀ (l : List (Node × ℝ)) (st : LoopState),
      (∀ n ∈ st.frontier, mapGet st.estimatedTotalCost n.id < ⊤) →
      ∀ n ∈ (l.foldl (relaxNeighbour goalN current) st).frontier,
        mapGet (l.foldl (relaxNeighbour goalN current) st).estimatedTotalCost n.id < ⊤ := by
  intro l
  induction l with
  | nil => intro st h; exact h
  | cons nw rest ih =>
    intro st h
    rw [List.foldl_cons]
    exact ih _ (relax_ffin h)

theorem runAStarLoop_ne_nullCrash (graph : ℕ → List (Node × ℝ)) (goalN : Node) :
    ∀ (fuel : ℕ) (st : LoopState),
      (∀ n ∈ st.frontier, mapGet st.estimatedTotalCost n.id < ⊤) →
      runAStarLoop graph goalN fuel st ≠ .nullCrash := by
  intro fuel
  induction fuel with
  | zero => intro st _; rw [runAStarLoop]; simp
  | succ f ih =>
    intro st h
    rw [runAStarLoop]
    by_cases he : st.frontier = []
    · rw [if_pos he]; simp
    · rw [if_neg he]
      obtain ⟨n, hn⟩ := getLowest_isSome he h
      simp only [hn]
      by_cases hg : n = goalN
      · rw [if_pos hg]; simp
      · rw [if_neg hg]
        apply ih
        apply relax_fold_ffin
        intro m hm
        exact h m (List.mem_of_mem_erase hm)

/-- Claim C10: every frontier node always carries a finite
`estimatedTotalCost`, so the frontier scan of `getLowestEstimatecCost`
returns an actual node whenever the frontier is non-empty, and a run of
`runAStar` can never reach the null dereference. -/
theorem runAStar_no_null :
    (∀ (g : ℕ → List (Node × ℝ)) (nodesL : List Node) (s gl : Node) (fuel : ℕ),
      runAStar g nodesL s gl fuel ≠ .nullCrash) ∧
    (∀ (frontier : List Node) (est : CostMap), frontier ≠ [] →
      (∀ n ∈ frontier, mapGet est n.id < ⊤) →
      ∃ n, getLowestEstimatecCost frontier est = some n) := by
  constructor
  · intro g nodesL s gl fuel
    apply runAStarLoop_ne_nullCrash
    intro n hn
    simp only [List.mem_singleton] at hn
    subst hn
    rw [initEst_start]
    exact WithTop.coe_lt_top _
  · intro f est h1 h2
    exact getLowest_isSome h1 h2

/-- Witness for C10: a concrete run and a concrete frontier scan. -/
theorem runAStar_no_null_witness :
    runAStar (fun _ => []) [] ⟨0, 0, 0, none⟩ ⟨1, 1, 1, none⟩ 3 ≠ .nullCrash ∧
    ∃ n, getLowestEstimatecCost [⟨0, 0, 0, none⟩] [(0, ((0 : ℝ) : WithTop ℝ))] = some n := by
  constructor
  · exact runAStar_no_null.1 (fun _ => []) [] ⟨0, 0, 0, none⟩ ⟨1, 1, 1, none⟩ 3
  · refine runAStar_no_null.2 [⟨0, 0, 0, none⟩] [(0, ((0 : ℝ) : WithTop ℝ))] (by simp) ?_
    intro n hn
    simp only [List.mem_singleton] at hn
    subst hn
    simp only [mapGet, List.lookup]
    exact WithTop.coe_lt_top 0

/-- Claim C6: with `start == goal` the first frontier scan selects the
goal and the search returns the single-element path `[start]`. -/
theorem runAStar_trivial_start_eq_goal (g : ℕ → List (Node × ℝ)) (nodesL : List Node)
    (s : Node) (fuel : ℕ) (hmem : s ∈ nodesL) (hfuel : 0 < fuel) :
    runAStar g nodesL s s fuel = .found [s] ∧
    getLowestEstimatecCost [s]
      ((s.id, ((heuristic s s : ℝ) : WithTop ℝ)) ::
        nodesL.map (fun n => (n.id, (⊤ : WithTop ℝ)))) = some s := by
  obtain ⟨fuel2, rfl⟩ : ∃ k, fuel = k + 1 :=
    ⟨fuel - 1, (Nat.succ_pred_eq_of_pos hfuel).symm⟩
  exact runAStar_self g nodesL s fuel2

/-- Witness for C6: the one-node graph. -/
theorem runAStar_trivial_start_eq_goal_witness :
    runAStar (fun _ => []) [⟨0, 0, 0, none⟩] ⟨0, 0, 0, none⟩ ⟨0, 0, 0, none⟩ 1 =
      .found [⟨0, 0, 0, none⟩] :=
  (runAStar_trivial_start_eq_goal (fun _ => []) [⟨0, 0, 0, none⟩] ⟨0, 0, 0, none⟩ 1
    (by simp) (by norm_num)).1



theorem relax_frontier_sub {goalN current : Node} {st : LoopState} {nw : Node × ℝ}
    {n : Node} (hn : n ∈ (relaxNeighbour goalN current st nw).frontier) :
    n ∈ st.frontier ∨ n = nw.1 := by
  simp only [relaxNeighbour] at hn
  split_ifs at hn with hc
  · rcases frontierAdd_mem.1 hn with rfl | h2
    · exact Or.inr rfl
    · exact Or.inl h2
  · exact Or.inl hn

theorem relax_fold_frontier_sub (goalN current : Node) :
    ∀ (l : List (Node × ℝ)) (st : LoopState) (n : Node),
      n ∈ (l.foldl (relaxNeighbour goalN current) st).frontier →
      n ∈ st.frontier ∨ ∃ w, (n, w) ∈ l := by
  intro l
  induction l with
  | nil => intro st n h; exact Or.inl h
  | cons nw rest ih =>
    intro st n h
    rw [List.foldl_cons] at h
    rcases ih _ n h with h2 | ⟨w, h2⟩
    · rcases relax_frontier_sub h2 with h3 | h3
      · exact Or.inl h3
      · exact Or.inr ⟨nw.2, by rw [h3]; exact List.mem_cons_self nw rest⟩
    · exact Or.inr ⟨w, List.mem_cons_of_mem nw h2⟩

theorem runAStarLoop_goal_unreached (graph : ℕ → List (Node × ℝ)) (goalN : Node)
    (hiso : ∀ id n w, (n, w) ∈ graph id → n.id ≠ goalN.id) :
    ∀ (fuel : ℕ) (st : LoopState),
      (∀ n ∈ st.frontier, n.id ≠ goalN.id) →
      ∀ p, runAStarLoop graph goalN fuel st ≠ .found p := by
  intro fuel
  induction fuel with
  | zero => intro st _ p; rw [runAStarLoop]; simp
  | succ f ih =>
    intro st h p
    rw [runAStarLoop]
    by_cases he : st.frontier = []
    · rw [if_pos he]; simp
    · rw [if_neg he]
      cases hn : getLowestEstimatecCost st.frontier st.estimatedTotalCost with
      | none => simp
      | some n =>
        have hmem := getLowest_mem hn
        have hne : n ≠ goalN := fun heq => h n hmem (by rw [heq])
        simp only []
        rw [if_neg hne]
        apply ih
        intro m hm
        rcases relax_fold_frontier_sub goalN n _ _ m hm with h2 | ⟨w, h2⟩
        · exact h m (List.mem_of_mem_erase h2)
        · exact hiso n.id m w h2

set_option maxHeartbeats 4000000 in
/-- The scenario obstacle: the goal Node sits strictly inside it. -/
theorem buildEdges_goal_inside :
    buildEdges [⟨4, 4, 2, 2⟩] [⟨0, 0, 0, none⟩, ⟨1, 5, 5, none⟩] = [] := by
  norm_num [buildEdges, pairEdges, allowPair, sameWall, isVisible, Node.pt,
    lineIntersectsRect, rectEdges, lineIntersectsLine, detQ, pointInRect]

/-- Claim C3: when the goal can never be selected (no adjacency entry
mentions its id and it differs from the start), `runAStar` never
returns a path and never crashes; the frontier drains and the search
reports not-found, as on the concrete scenario of a goal strictly
inside an obstacle. -/
theorem runAStar_notFound_on_isolated_goal :
    (∀ (graph : ℕ → List (Node × ℝ)) (nodesL : List Node) (s gl : Node) (fuel : ℕ),
      (∀ id n w, (n, w) ∈ graph id → n.id ≠ gl.id) → s.id ≠ gl.id →
      (∀ p, runAStar graph nodesL s gl fuel ≠ .found p) ∧
        runAStar graph nodesL s gl fuel ≠ .nullCrash) ∧
    pointInRect (Node.pt ⟨1, 5, 5, none⟩) ⟨4, 4, 2, 2⟩ = true ∧
    runAStar (graphOf (buildEdges [⟨4, 4, 2, 2⟩] [⟨0, 0, 0, none⟩, ⟨1, 5, 5, none⟩]))
      [⟨0, 0, 0, none⟩, ⟨1, 5, 5, none⟩] ⟨0, 0, 0, none⟩ ⟨1, 5, 5, none⟩ 2 =
      .notFound := by
  refine ⟨?_, ?_, ?_⟩
  · intro graph nodesL s gl fuel hiso hne
    constructor
    · intro p
      apply runAStarLoop_goal_unreached graph gl hiso
      intro n hn
      simp only [List.mem_singleton] at hn
      subst hn
      exact hne
    · apply runAStarLoop_ne_nullCrash
      intro n hn
      simp only [List.mem_singleton] at hn
      subst hn
      rw [initEst_start]
      exact WithTop.coe_lt_top _
  · norm_num [pointInRect, Node.pt]
  · have hg : graphOf (buildEdges [⟨4, 4, 2, 2⟩] [⟨0, 0, 0, none⟩, ⟨1, 5, 5, none⟩]) =
        fun _ => [] := by
      rw [buildEdges_goal_inside]
      rfl
    have hsel : getLowestEstimatecCost [(⟨0, 0, 0, none⟩ : Node)]
        ((0, ((heuristic ⟨0, 0, 0, none⟩ ⟨1, 5, 5, none⟩ : ℝ) : WithTop ℝ)) ::
          List.map (fun n => (n.id, (⊤ : WithTop ℝ)))
            [(⟨0, 0, 0, none⟩ : Node), ⟨1, 5, 5, none⟩]) = some ⟨0, 0, 0, none⟩ := by
      unfold getLowestEstimatecCost
      rw [List.foldl_cons, List.foldl_nil,
        if_pos (by rw [mapGet_cons, if_pos rfl]; exact WithTop.coe_lt_top _)]
    rw [hg, runAStar, runAStarLoop]
    rw [if_neg (by simp)]
    simp only [hsel]
    rw [if_neg (by simp)]
    simp only [List.foldl_nil]
    rw [runAStarLoop]
    rw [if_pos (by simp)]


/-- Witness for C3: a goal with no adjacency entries at all. -/
theorem runAStar_notFound_on_isolated_goal_witness :
    (∀ p, runAStar (fun _ => []) [] ⟨0, 0, 0, none⟩ ⟨1, 1, 1, none⟩ 1 ≠ .found p) ∧
    runAStar (fun _ => []) [] ⟨0, 0, 0, none⟩ ⟨1, 1, 1, none⟩ 1 ≠ .nullCrash :=
  runAStar_notFound_on_isolated_goal.1 (fun _ => []) [] ⟨0, 0, 0, none⟩ ⟨1, 1, 1, none⟩ 1
    (fun _id n w h => absurd h (List.not_mem_nil _)) (by decide)


/-! ## Path validity of the A* search (claim C1) -/


theorem lookupN_cons {β : Type} (k : ℕ) (v : β) (m : List (ℕ × β)) (j : ℕ) :
    ((k, v) :: m).lookup j = if j = k then some v else m.lookup j := by
  by_cases h : j = k
  · subst h
    simp [List.lookup]
  · have hb : (j == k) = false := by simpa using h
    simp [List.lookup, hb, if_neg h]

theorem lookup_cons_isSome {β : Type} {k : ℕ} {v : β} {m : List (ℕ × β)} {j : ℕ}
    (h : (m.lookup j).isSome = true) : (((k, v) :: m).lookup j).isSome = true := by
  rw [lookupN_cons]
  by_cases hj : j = k
  · rw [if_pos hj]
    rfl
  · rw [if_neg hj]
    exact h

theorem lookup_mem_keys {β : Type} {m : List (ℕ × β)} {j : ℕ} {v : β}
    (h : m.lookup j = some v) : j ∈ m.map Prod.fst := by
  induction m with
  | nil => simp [List.lookup] at h
  | cons kv rest ih =>
    obtain ⟨k, w⟩ := kv
    rw [lookupN_cons] at h
    by_cases hj : j = k
    · subst hj
      simp
    · rw [if_neg hj] at h
      exact List.mem_cons_of_mem _ (ih h)

theorem costDepthLt_trans {cost : CostMap} {depth : ℕ → ℕ} {a b c : ℕ}
    (h1 : costDepthLt cost depth a b) (h2 : costDepthLt cost depth b c) :
    costDepthLt cost depth a c := by
  rcases h1 with h1 | ⟨h1e, h1d⟩ <;> rcases h2 with h2 | ⟨h2e, h2d⟩
  · exact Or.inl (lt_trans h1 h2)
  · exact Or.inl (h2e ▸ h1)
  · exact Or.inl (h1e ▸ h2)
  · exact Or.inr ⟨h1e.trans h2e, lt_trans h1d h2d⟩

theorem costDepthLt_irrefl {cost : CostMap} {depth : ℕ → ℕ} {a : ℕ} :
    ¬costDepthLt cost depth a a := by
  rintro (h | ⟨-, h⟩)
  · exact lt_irrefl _ h
  · exact lt_irrefl _ h

theorem keysBelow_card_le (cf : List (ℕ × Node)) (cost : CostMap) (depth : ℕ → ℕ)
    (j : ℕ) : (keysBelow cf cost depth j).card ≤ cf.length := by
  classical
  have h1 : keysBelow cf cost depth j ⊆ (cf.map Prod.fst).toFinset := by
    unfold keysBelow
    exact Finset.filter_subset _ _
  have h2 := Finset.card_le_card h1
  have h3 := List.toFinset_card_le (cf.map Prod.fst)
  have h4 : (cf.map Prod.fst).length = cf.length := List.length_map _ _
  omega

theorem keysBelow_card_step {cf : List (ℕ × Node)} {cost : CostMap} {depth : ℕ → ℕ}
    {j : ℕ} {u : Node} (hlk : cf.lookup j = some u)
    (hlt : costDepthLt cost depth u.id j) :
    (keysBelow cf cost depth u.id).card + 1 ≤ (keysBelow cf cost depth j).card := by
  classical
  have hjk : j ∈ (cf.map Prod.fst).toFinset := by
    rw [List.mem_toFinset]
    exact lookup_mem_keys hlk
  have hjmem : j ∈ keysBelow cf cost depth j := by
    unfold keysBelow
    rw [Finset.mem_filter]
    exact ⟨hjk, Or.inr rfl⟩
  have hsub : keysBelow cf cost depth u.id ⊆ (keysBelow cf cost depth j).erase j := by
    intro k hk
    unfold keysBelow at hk
    rw [Finset.mem_filter] at hk
    obtain ⟨hkmem, hkc⟩ := hk
    have hklt : costDepthLt cost depth k j := by
      rcases hkc with hkc | rfl
      · exact costDepthLt_trans hkc hlt
      · exact hlt
    rw [Finset.mem_erase]
    refine ⟨?_, ?_⟩
    · rintro rfl
      exact costDepthLt_irrefl hklt
    · unfold keysBelow
      rw [Finset.mem_filter]
      exact ⟨hkmem, Or.inl hklt⟩
  have hcard := Finset.card_le_card hsub
  rw [Finset.card_erase_of_mem hjmem] at hcard
  have hpos : 1 ≤ (keysBelow cf cost depth j).card := Finset.card_pos.2 ⟨j, hjmem⟩
  omega

theorem constructPath_of_lookup_none {cf : List (ℕ × Node)} {v : Node}
    (h : cf.lookup v.id = none) : ∀ fuel, constructPath cf v fuel = [v] := by
  intro fuel
  cases fuel with
  | zero => rfl
  | succ f =>
    rw [constructPath, h]



theorem keysBelow_rank_lt {cf : List (ℕ × Node)} {cost : CostMap} {depth : ℕ → ℕ}
    (hlex : ∀ id u, cf.lookup id = some u → costDepthLt cost depth u.id id) :
    ∀ id u, cf.lookup id = some u →
      (keysBelow cf cost depth u.id).card < (keysBelow cf cost depth id).card := by
  intro id u h
  have := keysBelow_card_step h (hlex id u h)
  omega

theorem constructPath_valid
    {graph : ℕ → List (Node × ℝ)} {nodesL : List Node} {startN : Node}
    (hu : idUnique nodesL)
    (Gmem : ∀ id n w, (n, w) ∈ graph id → n ∈ nodesL)
    {cf : List (ℕ × Node)}
    (hedge : ∀ id u, cf.lookup id = some u →
      ∃ nbr w, (nbr, w) ∈ graph u.id ∧ nbr.id = id)
    (hvmem : ∀ id u, cf.lookup id = some u → u ∈ nodesL)
    (hpdom : ∀ id u, cf.lookup id = some u →
      u = startN ∨ (cf.lookup u.id).isSome = true)
    (mu : ℕ → ℕ)
    (hmu : ∀ id u, cf.lookup id = some u → mu u.id < mu id) :
    ∀ (n fuel : ℕ) (v : Node), mu v.id ≤ n → n ≤ fuel →
      (v = startN ∨ (cf.lookup v.id).isSome = true) → v ∈ nodesL →
      (constructPath cf v fuel).head? = some startN ∧
      (constructPath cf v fuel).getLast? = some v ∧
      List.Chain' (fun a b => ∃ w, (b, w) ∈ graph a.id) (constructPath cf v fuel) := by
  intro n
  induction n with
  | zero =>
    intro fuel v hb _ hv _
    have hnone : cf.lookup v.id = none := by
      cases hlk : cf.lookup v.id with
      | none => rfl
      | some u => exact absurd (hmu _ _ hlk) (by omega)
    have hvs : v = startN := by
      rcases hv with h | h
      · exact h
      · rw [hnone] at h
        exact absurd h (by simp)
    rw [constructPath_of_lookup_none hnone]
    subst hvs
    exact ⟨rfl, rfl, List.chain'_singleton _⟩
  | succ n ih =>
    intro fuel v hb hf hv hvm
    cases hlk : cf.lookup v.id with
    | none =>
      have hvs : v = startN := by
        rcases hv with h | h
        · exact h
        · rw [hlk] at h
          exact absurd h (by simp)
      rw [constructPath_of_lookup_none hlk]
      subst hvs
      exact ⟨rfl, rfl, List.chain'_singleton _⟩
    | some u =>
      obtain ⟨f, rfl⟩ : ∃ f, fuel = f + 1 := ⟨fuel - 1, by omega⟩
      have hrec := ih f u (by have := hmu _ _ hlk; omega) (by omega)
        (hpdom _ _ hlk) (hvmem _ _ hlk)
      obtain ⟨hh, hl, hc⟩ := hrec
      have hstep : constructPath cf v (f + 1) = constructPath cf u f ++ [v] := by
        rw [constructPath, hlk]
      rw [hstep]
      obtain ⟨t, ht⟩ : ∃ t, constructPath cf u f = startN :: t := by
        cases hcp : constructPath cf u f with
        | nil => rw [hcp] at hh; exact absurd hh (by simp)
        | cons x xs =>
          rw [hcp] at hh
          simp only [List.head?_cons, Option.some.injEq] at hh
          exact ⟨xs, by rw [hh]⟩
      refine ⟨by rw [ht]; rfl, List.getLast?_concat _, ?_⟩
      rw [List.chain'_append]
      refine ⟨hc, List.chain'_singleton _, ?_⟩
      intro x hx y hy
      rw [hl] at hx
      simp only [Option.mem_def, Option.some.injEq] at hx hy
      subst hx
      simp only [List.head?_cons, Option.some.injEq] at hy
      subst hy
      obtain ⟨nbr, w, hmem, hid⟩ := hedge _ _ hlk
      have hnbr : nbr = v := hu nbr (Gmem _ _ _ hmem) v hvm hid
      exact ⟨w, hnbr ▸ hmem⟩



theorem mapGet_map_top (l : List Node) (k : ℕ) :
    mapGet (l.map fun n => (n.id, (⊤ : WithTop ℝ))) k = ⊤ := by
  induction l with
  | nil => rfl
  | cons n rest ih =>
    rw [List.map_cons]
    rw [show mapGet ((n.id, (⊤ : WithTop ℝ)) ::
      rest.map fun n => (n.id, (⊤ : WithTop ℝ))) k =
      if k = n.id then ⊤ else mapGet (rest.map fun n => (n.id, (⊤ : WithTop ℝ))) k
      from mapGet_cons _ _ _ _]
    by_cases h : k = n.id
    · rw [if_pos h]
    · rw [if_neg h]
      exact ih

theorem AInv_init {graph : ℕ → List (Node × ℝ)} {nodesL : List Node}
    {startN goalN : Node} (hs : startN ∈ nodesL) :
    AInv graph nodesL startN
      { frontier := [startN]
        cameFrom := []
        costFromStart :=
          (startN.id, (0 : WithTop ℝ)) :: nodesL.map (fun n => (n.id, (⊤ : WithTop ℝ)))
        estimatedTotalCost :=
          (startN.id, ((heuristic startN goalN : ℝ) : WithTop ℝ)) ::
            nodesL.map (fun n => (n.id, (⊤ : WithTop ℝ))) } := by
  refine ⟨?_, ?_, ?_, ?_, ?_, ?_, ?_, ?_, ?_⟩
  · intro id
    rw [mapGet_cons]
    by_cases h : id = startN.id
    · rw [if_pos h]
    · rw [if_neg h, mapGet_map_top]
      exact le_top
  · rw [mapGet_cons, if_pos rfl]
  · rfl
  · intro id u h
    simp [List.lookup] at h
  · intro id u h
    simp [List.lookup] at h
  · intro id u h
    simp [List.lookup] at h
  · refine ⟨fun _ => 0, fun id u h => ?_⟩
    simp [List.lookup] at h
  · intro n hn
    simp only [List.mem_singleton] at hn
    subst hn
    exact Or.inl rfl
  · intro n hn
    simp only [List.mem_singleton] at hn
    subst hn
    exact hs

theorem AInv_relax {graph : ℕ → List (Node × ℝ)} {nodesL : List Node}
    {startN goalN current : Node} {st : LoopState} {nw : Node × ℝ}
    (Wnn : ∀ id n w, (n, w) ∈ graph id → 0 ≤ w)
    (Gmem : ∀ id n w, (n, w) ∈ graph id → n ∈ nodesL)
    (hnw : nw ∈ graph current.id)
    (hcd : current = startN ∨ (st.cameFrom.lookup current.id).isSome = true)
    (hcm : current ∈ nodesL)
    (hinv : AInv graph nodesL startN st) :
    AInv graph nodesL startN (relaxNeighbour goalN current st nw) := by
  simp only [relaxNeighbour]
  split_ifs with hc
  case neg => exact hinv
  have hwnn : (0 : ℝ) ≤ nw.2 := Wnn current.id nw.1 nw.2 hnw
  have hwtop : (0 : WithTop ℝ) ≤ (nw.2 : WithTop ℝ) := by exact_mod_cast hwnn
  have hTnn : 0 ≤ mapGet st.costFromStart current.id + (nw.2 : WithTop ℝ) :=
    add_nonneg (hinv.nn current.id) hwtop
  have hTleft : mapGet st.costFromStart current.id ≤
      mapGet st.costFromStart current.id + (nw.2 : WithTop ℝ) :=
    le_add_of_nonneg_right hwtop
  have hne_start : nw.1.id ≠ startN.id := by
    intro h
    rw [h, hinv.zstart] at hc
    exact absurd hc (not_lt.2 hTnn)
  have hne_cur : nw.1.id ≠ current.id := by
    intro h
    rw [h] at hc
    exact absurd hc (not_lt.2 hTleft)
  refine ⟨?_, ?_, ?_, ?_, ?_, ?_, ?_, ?_, ?_⟩
  · intro id
    rw [mapGet_cons]
    by_cases h : id = nw.1.id
    · rw [if_pos h]
      exact hTnn
    · rw [if_neg h]
      exact hinv.nn id
  · rw [mapGet_cons, if_neg (fun h => hne_start h.symm)]
    exact hinv.zstart
  · rw [lookupN_cons, if_neg (fun h => hne_start h.symm)]
    exact hinv.startNone
  · intro id u hlk
    rw [lookupN_cons] at hlk
    by_cases h : id = nw.1.id
    · rw [if_pos h] at hlk
      injection hlk with h2
      subst h2
      exact ⟨nw.1, nw.2, hnw, h.symm⟩
    · rw [if_neg h] at hlk
      exact hinv.edge id u hlk
  · intro id u hlk
    rw [lookupN_cons] at hlk
    by_cases h : id = nw.1.id
    · rw [if_pos h] at hlk
      injection hlk with h2
      subst h2
      exact hcm
    · rw [if_neg h] at hlk
      exact hinv.vmem id u hlk
  · intro id u hlk
    rw [lookupN_cons] at hlk
    by_cases h : id = nw.1.id
    · rw [if_pos h] at hlk
      injection hlk with h2
      subst h2
      rcases hcd with h3 | h3
      · exact Or.inl h3
      · exact Or.inr (lookup_cons_isSome h3)
    · rw [if_neg h] at hlk
      rcases hinv.pdom id u hlk with h3 | h3
      · exact Or.inl h3
      · exact Or.inr (lookup_cons_isSome h3)
  · obtain ⟨depth, hdep⟩ := hinv.lex
    refine ⟨Function.update depth nw.1.id (depth current.id + 1), ?_⟩
    intro id u hlk
    rw [lookupN_cons] at hlk
    by_cases h : id = nw.1.id
    · rw [if_pos h] at hlk
      injection hlk with h2
      subst h2
      subst h
      unfold costDepthLt
      rw [mapGet_cons, if_neg (fun h => hne_cur h.symm), mapGet_cons, if_pos rfl]
      rcases lt_or_eq_of_le hTleft with hlt | heq
      · exact Or.inl hlt
      · refine Or.inr ⟨heq, ?_⟩
        rw [Function.update_noteq (fun h => hne_cur h.symm), Function.update_same]
        exact Nat.lt_succ_self _
    · rw [if_neg h] at hlk
      have hold := hdep id u hlk
      unfold costDepthLt at hold ⊢
      have hmi : mapGet ((nw.1.id, mapGet st.costFromStart current.id +
          (nw.2 : WithTop ℝ)) :: st.costFromStart) id = mapGet st.costFromStart id := by
        rw [mapGet_cons, if_neg h]
      by_cases h2 : u.id = nw.1.id
      · left
        have hmu : mapGet ((nw.1.id, mapGet st.costFromStart current.id +
            (nw.2 : WithTop ℝ)) :: st.costFromStart) u.id =
            mapGet st.costFromStart current.id + (nw.2 : WithTop ℝ) := by
          rw [mapGet_cons, if_pos h2]
        rw [hmu, hmi]
        have hle : mapGet st.costFromStart u.id ≤ mapGet st.costFromStart id := by
          rcases hold with h3 | ⟨h3, -⟩
          · exact le_of_lt h3
          · exact le_of_eq h3
        calc mapGet st.costFromStart current.id + (nw.2 : WithTop ℝ)
            < mapGet st.costFromStart nw.1.id := hc
          _ = mapGet st.costFromStart u.id := by rw [h2]
          _ ≤ mapGet st.costFromStart id := hle
      · have hmu : mapGet ((nw.1.id, mapGet st.costFromStart current.id +
            (nw.2 : WithTop ℝ)) :: st.costFromStart) u.id =
            mapGet st.costFromStart u.id := by
          rw [mapGet_cons, if_neg h2]
        rw [hmu, hmi]
        rcases hold with h3 | ⟨h3, h4⟩
        · exact Or.inl h3
        · refine Or.inr ⟨h3, ?_⟩
          rw [Function.update_noteq h2, Function.update_noteq h]
          exact h4
  · intro n hn
    rcases frontierAdd_mem.1 hn with rfl | hn2
    · refine Or.inr ?_
      rw [lookupN_cons, if_pos rfl]
      rfl
    · rcases hinv.fdom n hn2 with h2 | h2
      · exact Or.inl h2
      · exact Or.inr (lookup_cons_isSome h2)
  · intro n hn
    rcases frontierAdd_mem.1 hn with rfl | hn2
    · exact Gmem current.id nw.1 nw.2 hnw
    · exact hinv.fmem n hn2



theorem AInv_fold {graph : ℕ → List (Node × ℝ)} {nodesL : List Node}
    {startN goalN current : Node}
    (Wnn : ∀ id n w, (n, w) ∈ graph id → 0 ≤ w)
    (Gmem : ∀ id n w, (n, w) ∈ graph id → n ∈ nodesL)
    (hcm : current ∈ nodesL) :
    ∀ (l : List (Node × ℝ)) (st : LoopState),
      (∀ nw ∈ l, nw ∈ graph current.id) →
      (current = startN ∨ (st.cameFrom.lookup current.id).isSome = true) →
      AInv graph nodesL startN st →
      AInv graph nodesL startN (l.foldl (relaxNeighbour goalN current) st) := by
  intro l
  induction l with
  | nil => intro st _ _ h; exact h
  | cons nw rest ih =>
    intro st hsub hcd hinv
    rw [List.foldl_cons]
    apply ih
    · intro x hx
      exact hsub x (List.mem_cons_of_mem _ hx)
    · rcases hcd with h | h
      · exact Or.inl h
      · refine Or.inr ?_
        simp only [relaxNeighbour]
        split_ifs
        · exact lookup_cons_isSome h
        · exact h
    · exact AInv_relax Wnn Gmem (hsub nw (List.mem_cons_self _ _)) hcd hcm hinv

theorem AInv_erase {graph : ℕ → List (Node × ℝ)} {nodesL : List Node}
    {startN : Node} {st : LoopState} {current : Node}
    (hinv : AInv graph nodesL startN st) :
    AInv graph nodesL startN { st with frontier := st.frontier.erase current } :=
  ⟨hinv.nn, hinv.zstart, hinv.startNone, hinv.edge, hinv.vmem, hinv.pdom, hinv.lex,
   fun n hn => hinv.fdom n (List.mem_of_mem_erase hn),
   fun n hn => hinv.fmem n (List.mem_of_mem_erase hn)⟩

theorem runAStarLoop_found_valid
    {graph : ℕ → List (Node × ℝ)} {nodesL : List Node} {startN goalN : Node}
    (hu : idUnique nodesL)
    (Wnn : ∀ id n w, (n, w) ∈ graph id → 0 ≤ w)
    (Gmem : ∀ id n w, (n, w) ∈ graph id → n ∈ nodesL) :
    ∀ (fuel : ℕ) (st : LoopState) (p : List Node),
      AInv graph nodesL startN st →
      runAStarLoop graph goalN fuel st = .found p →
      p.head? = some startN ∧ p.getLast? = some goalN ∧
      List.Chain' (fun a b => ∃ w, (b, w) ∈ graph a.id) p := by
  intro fuel
  induction fuel with
  | zero =>
    intro st p _ h
    rw [runAStarLoop] at h
    exact absurd h (by simp)
  | succ f ih =>
    intro st p hinv h
    rw [runAStarLoop] at h
    by_cases he : st.frontier = []
    · rw [if_pos he] at h
      exact absurd h (by simp)
    · rw [if_neg he] at h
      cases hg : getLowestEstimatecCost st.frontier st.estimatedTotalCost with
      | none =>
        rw [hg] at h
        exact absurd h (by simp)
      | some current =>
        rw [hg] at h
        simp only [] at h
        have hcmem := getLowest_mem hg
        by_cases hcg : current = goalN
        · rw [if_pos hcg] at h
          injection h with h2
          obtain ⟨depth, hdep⟩ := hinv.lex
          have hwalk := constructPath_valid hu Gmem hinv.edge hinv.vmem hinv.pdom
            (fun j => (keysBelow st.cameFrom st.costFromStart depth j).card)
            (keysBelow_rank_lt hdep)
            st.cameFrom.length st.cameFrom.length current
            (keysBelow_card_le _ _ _ _) (le_refl _)
            (hinv.fdom current hcmem) (hinv.fmem current hcmem)
          rw [← h2, ← hcg]
          exact hwalk
        · rw [if_neg hcg] at h
          refine ih _ p ?_ h
          apply AInv_fold Wnn Gmem (hinv.fmem current hcmem)
          · intro nw hnw
            exact hnw
          · exact hinv.fdom current hcmem
          · exact AInv_erase hinv

/-- Claim C1: a path found by `runAStar` over the adjacency index built
by `buildGraph` starts at the start node, ends at the goal node, and
each consecutive pair of its nodes is an adjacency entry. -/
theorem runAStar_path_valid (obstacles : List Obstacle) (nodesL : List Node)
    (s gl : Node) (fuel : ℕ) (p : List Node)
    (hu : idUnique nodesL) (hs : s ∈ nodesL)
    (hrun : runAStar (graphOf (buildEdges obstacles nodesL)) nodesL s gl fuel =
      .found p) :
    p.head? = some s ∧ p.getLast? = some gl ∧
    List.Chain' (fun a b => ∃ w, (b, w) ∈ graphOf (buildEdges obstacles nodesL) a.id) p := by
  have Wnn : ∀ id n w, (n, w) ∈ graphOf (buildEdges obstacles nodesL) id → 0 ≤ w := by
    intro id n w hmem
    obtain ⟨e, _, _, _, hw⟩ := graphOf_mem.1 hmem
    rw [hw]
    exact hypot_nonneg _ _
  have Gmem : ∀ id n w, (n, w) ∈ graphOf (buildEdges obstacles nodesL) id →
      n ∈ nodesL := by
    intro id n w hmem
    obtain ⟨e, he, _, hn, _⟩ := graphOf_mem.1 hmem
    rw [← hn]
    exact (buildEdges_endpoints_mem he).2
  exact runAStarLoop_found_valid hu Wnn Gmem fuel _ p (AInv_init hs) hrun

/-- Witness for C1: the trivial one-node search. -/
theorem runAStar_path_valid_witness :
    ([(⟨0, 0, 0, none⟩ : Node)].head? = some ⟨0, 0, 0, none⟩) ∧
    ([(⟨0, 0, 0, none⟩ : Node)].getLast? = some ⟨0, 0, 0, none⟩) := by
  have hu : idUnique [(⟨0, 0, 0, none⟩ : Node)] := by
    intro u hu v hv _
    simp only [List.mem_singleton] at hu hv
    rw [hu, hv]
  have hrun : runAStar (graphOf (buildEdges [] [(⟨0, 0, 0, none⟩ : Node)]))
      [(⟨0, 0, 0, none⟩ : Node)] ⟨0, 0, 0, none⟩ ⟨0, 0, 0, none⟩ 1 =
      .found [⟨0, 0, 0, none⟩] :=
    (runAStar_self _ _ _ 0).1
  have h := runAStar_path_valid [] [(⟨0, 0, 0, none⟩ : Node)] ⟨0, 0, 0, none⟩
    ⟨0, 0, 0, none⟩ 1 [⟨0, 0, 0, none⟩] hu (by simp) hrun
  exact ⟨h.1, h.2.1⟩


end PathSim
